import Mathlib

/-!
Verification of the N-Queens bitmask backtracking solver.

The repository holds three near-duplicate C++ solvers:
  * `src/solver.cpp`          (namespace `Solver`  here): plain backtracking with a
    stop flag and a 1000-solution cap for boards of size ≥ 21, plus a
    symmetry-optimized driver for smaller boards;
  * `src/unnamed/part_000`    (namespace `Part000` here): same shape, but the
    `terminateSearch` flag is never set (no cap is ever enforced) and the
    unsolvable check in `main` tests only `boardSize == 2 || boardSize == 3`;
  * `src/unnamed/part_001`    (namespace `Part001` here): no stop flag at all,
    the symmetry driver also skips boards of size ≤ 1, and `main` uses the
    `boardSize < 4 && boardSize != 1` check.

Modelling decisions, shared by all three embeddings:
  * `uint64_t` values are `Nat` with explicit `% 2^64` truncation on the one
    operation that can overflow (the left shift of the left-diagonal mask);
    all other mask operations provably stay below `2^64`.
  * The C++ `while (possible)` loop repeatedly extracts the lowest set bit
    (`possible & -possible`, i.e. `possible & (2^64 - possible)` on the
    64-bit word) and subtracts it, so it visits the set bits of `possible`
    in increasing position order; it is embedded as a fold over the
    increasing list of set-bit indices of the 64-bit word.
  * The global solution counter, stop flag and the record sink (the temp
    file receiving one printed line per solution) are threaded as an
    explicit state `SolveState`.  A sink record is the list of integers
    printed on one line.
  * The single mutable `vector<int>` of placements, pushed before each
    recursive call and popped right after it returns, is embedded as an
    immutable list argument: the callee receives `path ++ [column]` and the
    caller's own `path` is untouched by the call, which is exactly the
    push/pop discipline of the source (each sibling call receives the same
    parent placement with only its own column appended).
  * Recursion is by fuel on the number of rows still to fill; one unit of
    fuel is spent per row descended, so fuel `N` from an empty board is
    never exhausted (the base case fires before the fuel is consulted).
-/

/-- The complement of a 64-bit word (C++ `~x` on `uint64_t`). -/
def compl64 (x : Nat) : Nat := x ^^^ (2 ^ 64 - 1)

/-- `LIMIT` / `fullMask` / `fullBoardMask`: `(1ULL << N) - 1`, the mask with
the lowest `N` bits set (well-defined in the C++ source for `N ≤ 63`). -/
def limit (N : Nat) : Nat := 2 ^ N - 1

/-- The set-bit positions of a 64-bit word, in increasing order: the order in
which `while (possible) { bit = possible & -possible; possible -= bit; ... }`
visits them. -/
def bitIndices (p : Nat) : List Nat :=
  (List.range 64).filter (fun i => p.testBit i)

/-- `~(cols | diagLeft | diagRight) & LIMIT`: the candidate columns for the
current row. -/
def availableMask (N cols dl dr : Nat) : Nat :=
  compl64 (cols ||| dl ||| dr) &&& limit N

/-- The mirrored record printed by `printMirrorSolution` /
`writeMirroredSolution` (and built explicitly in `part_001`): every column
`x` becomes `N + 1 - x`. -/
def mirror (N : Nat) (path : List Nat) : List Nat :=
  path.map (fun x => N + 1 - x)

/-- The global program state threaded through the search: the solution
counter, the `stopSearch` / `terminateSearch` flag, and the records written
to the temp-file sink (one list of printed column values per line). -/
structure SolveState where
  count : Nat
  stop : Bool
  out : List (List Nat)
deriving DecidableEq, Repr

/-- The initial state: zero solutions, flag clear, empty sink. -/
def initState : SolveState := ⟨0, false, []⟩

namespace Solver

/-- `FIND_ALL_LIMIT` in `solver.cpp`. -/
def FIND_ALL_LIMIT : Nat := 21

/-- `MAX_SOLUTIONS_LARGE_N` in `solver.cpp`. -/
def MAX_SOLUTIONS_LARGE_N : Nat := 1000

/-- `solve` from `solver.cpp` (lines 104-148): entry stop check; base case
counts, prints, and sets the stop flag once the large-board cap is reached;
otherwise each candidate bit of the available mask is visited in increasing
order, with a stop check before each descent, the chosen 1-indexed column
being pushed for the recursive call and popped after it (immutable-list
embedding of the push/pop pair). -/
def solve (N : Nat) : Nat → Nat → Nat → Nat → List Nat → SolveState → SolveState
  | fuel, cols, dl, dr, path, ⟨count, stop, out⟩ =>
    if stop then ⟨count, stop, out⟩
    else if cols = limit N then
      if FIND_ALL_LIMIT ≤ N ∧ MAX_SOLUTIONS_LARGE_N ≤ count + 1 then
        ⟨count + 1, true, out ++ [path]⟩
      else ⟨count + 1, stop, out ++ [path]⟩
    else
      match fuel with
      | 0 => ⟨count, stop, out⟩
      | f + 1 =>
        (bitIndices (availableMask N cols dl dr)).foldl
          (fun st j =>
            if st.stop then st
            else
              solve N f (cols ||| 2 ^ j) (((dl ||| 2 ^ j) <<< 1) % 2 ^ 64)
                ((dr ||| 2 ^ j) >>> 1) (path ++ [j + 1]) st)
          ⟨count, stop, out⟩

/-- The `symmetricSolve` lambda inside `solveWithSymmetry` (lines 171-194):
like `solve`, but with no stop checks, no cap, and the base case emits the
current path and then its mirror, counting both. -/
def symmetricSolve (N : Nat) : Nat → Nat → Nat → Nat → List Nat → SolveState → SolveState
  | fuel, cols, dl, dr, path, ⟨count, stop, out⟩ =>
    if cols = limit N then
      ⟨count + 1 + 1, stop, (out ++ [path]) ++ [mirror N path]⟩
    else
      match fuel with
      | 0 => ⟨count, stop, out⟩
      | f + 1 =>
        (bitIndices (availableMask N cols dl dr)).foldl
          (fun st j =>
            symmetricSolve N f (cols ||| 2 ^ j) (((dl ||| 2 ^ j) <<< 1) % 2 ^ 64)
              ((dr ||| 2 ^ j) >>> 1) (path ++ [j + 1]) st)
          ⟨count, stop, out⟩

/-- `solveWithSymmetry` from `solver.cpp` (lines 152-209): for `N ≥ 21` the
plain solver runs over the whole board; otherwise the first-row column
ranges over the first half of the row (each inner search emitting solution
and mirror), and for odd `N` the middle first-row column is explored by the
plain solver. -/
def solveWithSymmetry (N : Nat) : SolveState :=
  if FIND_ALL_LIMIT ≤ N then
    solve N N 0 0 0 [] initState
  else
    let s1 :=
      (List.range (N / 2)).foldl
        (fun st col =>
          symmetricSolve N N (2 ^ col) (2 ^ col <<< 1) (2 ^ col >>> 1)
            [col + 1] st)
        initState
    if N % 2 = 1 then
      solve N N (2 ^ (N / 2)) (2 ^ (N / 2) <<< 1) (2 ^ (N / 2) >>> 1)
        [N / 2 + 1] s1
    else s1

end Solver

namespace Part000

/-- `ENUMERATION_LIMIT` in `part_000`. -/
def ENUMERATION_LIMIT : Nat := 21

/-- `backtrack` from `part_000` (lines 98-138): identical to `Solver.solve`
except that the base case has no cap code at all — nothing in this file ever
sets `terminateSearch`, so the entry and loop stop checks (kept here
faithfully) never fire. -/
def backtrack (N : Nat) : Nat → Nat → Nat → Nat → List Nat → SolveState → SolveState
  | fuel, cols, dl, dr, path, ⟨count, stop, out⟩ =>
    if stop then ⟨count, stop, out⟩
    else if cols = limit N then
      ⟨count + 1, stop, out ++ [path]⟩
    else
      match fuel with
      | 0 => ⟨count, stop, out⟩
      | f + 1 =>
        (bitIndices (availableMask N cols dl dr)).foldl
          (fun st j =>
            if st.stop then st
            else
              backtrack N f (cols ||| 2 ^ j) (((dl ||| 2 ^ j) <<< 1) % 2 ^ 64)
                ((dr ||| 2 ^ j) >>> 1) (path ++ [j + 1]) st)
          ⟨count, stop, out⟩

/-- The `symmetricDFS` lambda inside `part_000`'s `solveWithSymmetry`
(lines 161-184): emits the solution and then its mirror, counting both. -/
def symmetricDFS (N : Nat) : Nat → Nat → Nat → Nat → List Nat → SolveState → SolveState
  | fuel, cols, dl, dr, path, ⟨count, stop, out⟩ =>
    if cols = limit N then
      ⟨count + 1 + 1, stop, (out ++ [path]) ++ [mirror N path]⟩
    else
      match fuel with
      | 0 => ⟨count, stop, out⟩
      | f + 1 =>
        (bitIndices (availableMask N cols dl dr)).foldl
          (fun st j =>
            symmetricDFS N f (cols ||| 2 ^ j) (((dl ||| 2 ^ j) <<< 1) % 2 ^ 64)
              ((dr ||| 2 ^ j) >>> 1) (path ++ [j + 1]) st)
          ⟨count, stop, out⟩

/-- `solveWithSymmetry` from `part_000` (lines 142-199): same driver shape
as `solver.cpp`'s. -/
def solveWithSymmetry (N : Nat) : SolveState :=
  if ENUMERATION_LIMIT ≤ N then
    backtrack N N 0 0 0 [] initState
  else
    let s1 :=
      (List.range (N / 2)).foldl
        (fun st col =>
          symmetricDFS N N (2 ^ col) (2 ^ col <<< 1) (2 ^ col >>> 1)
            [col + 1] st)
        initState
    if N % 2 = 1 then
      backtrack N N (2 ^ (N / 2)) (2 ^ (N / 2) <<< 1) (2 ^ (N / 2) >>> 1)
        [N / 2 + 1] s1
    else s1

end Part000

namespace Part001

/-- `solve` from `part_001` (lines 69-95): plain backtracking with no stop
flag and no cap. -/
def solve (N : Nat) : Nat → Nat → Nat → Nat → List Nat → SolveState → SolveState
  | fuel, cols, dl, dr, path, ⟨count, stop, out⟩ =>
    if cols = limit N then
      ⟨count + 1, stop, out ++ [path]⟩
    else
      match fuel with
      | 0 => ⟨count, stop, out⟩
      | f + 1 =>
        (bitIndices (availableMask N cols dl dr)).foldl
          (fun st j =>
            solve N f (cols ||| 2 ^ j) (((dl ||| 2 ^ j) <<< 1) % 2 ^ 64)
              ((dr ||| 2 ^ j) >>> 1) (path ++ [j + 1]) st)
          ⟨count, stop, out⟩

/-- The `recursiveSolver` lambda inside `part_001`'s `solveWithSymmetry`
(lines 114-137): emits the solution, then builds the mirrored copy of the
placement vector and emits it, counting both. -/
def recursiveSolver (N : Nat) : Nat → Nat → Nat → Nat → List Nat → SolveState → SolveState
  | fuel, cols, dl, dr, path, ⟨count, stop, out⟩ =>
    if cols = limit N then
      ⟨count + 1 + 1, stop, (out ++ [path]) ++ [mirror N path]⟩
    else
      match fuel with
      | 0 => ⟨count, stop, out⟩
      | f + 1 =>
        (bitIndices (availableMask N cols dl dr)).foldl
          (fun st j =>
            recursiveSolver N f (cols ||| 2 ^ j) (((dl ||| 2 ^ j) <<< 1) % 2 ^ 64)
              ((dr ||| 2 ^ j) >>> 1) (path ++ [j + 1]) st)
          ⟨count, stop, out⟩

/-- `solveWithSymmetry` from `part_001` (lines 98-151): boards of size ≤ 1
or ≥ 21 go to the plain solver over the whole board; otherwise as in the
other variants. -/
def solveWithSymmetry (N : Nat) : SolveState :=
  if N ≤ 1 ∨ 21 ≤ N then
    solve N N 0 0 0 [] initState
  else
    let s1 :=
      (List.range (N / 2)).foldl
        (fun st col =>
          recursiveSolver N N (2 ^ col) (2 ^ col <<< 1) (2 ^ col >>> 1)
            [col + 1] st)
        initState
    if N % 2 = 1 then
      solve N N (2 ^ (N / 2)) (2 ^ (N / 2) <<< 1) (2 ^ (N / 2) >>> 1)
        [N / 2 + 1] s1
    else s1

end Part001

/-- The observable outcome of one `main` run.  The caller-facing I/O
(file names, the summary layout, timing printout) is plumbing; what the
claims need is which of the distinct terminal behaviours is taken and, on a
completed search, the reported count and records. -/
inductive MainOutcome where
  /-- `argc < 2`: usage message, exit code 1. -/
  | usageError
  /-- unreadable file or unparseable integer: `"Invalid input file"`,
  exit code 1, the search never runs. -/
  | invalidInput
  /-- the unsolvable-board branch: `"No Solution"` written, exit code 0,
  the search never runs. -/
  | noSolution
  /-- full run: summary with board size, count, and the sink records. -/
  | completed (N : Nat) (count : Nat) (records : List (List Nat))
  /-- the run reaches `1ULL << boardSize` with a shift amount outside
  `0..63`, which is undefined behaviour in C++; outside the model. -/
  | undefinedShift
deriving DecidableEq, Repr

/-- The process exit code of an outcome. -/
def exitCode : MainOutcome → Nat
  | .usageError => 1
  | .invalidInput => 1
  | _ => 0

/-- The solution count the outcome reports (a failure or no-solution run
reports none). -/
def reportedCount : MainOutcome → Nat
  | .completed _ c _ => c
  | _ => 0

/-- The records the outcome persists. -/
def reportedRecords : MainOutcome → List (List Nat)
  | .completed _ _ r => r
  | _ => []

namespace Solver

/-- `main` from `solver.cpp` (lines 215-275), from the point where the input
integer is available: `none` stands for an unreadable/unparseable input
file.  `N < 4 && N != 1` short-circuits to `"No Solution"`; otherwise
`LIMIT = (1ULL << N) - 1` is computed (undefined for `N ≥ 64`) and the
search runs. -/
def main (input : Option Int) : MainOutcome :=
  match input with
  | none => .invalidInput
  | some n =>
    if n < 4 ∧ n ≠ 1 then .noSolution
    else if 64 ≤ n then .undefinedShift
    else
      let s := solveWithSymmetry n.toNat
      .completed n.toNat s.count s.out

end Solver

namespace Part000

/-- `main` from `part_000` (lines 203-265): only `boardSize == 2` and
`boardSize == 3` short-circuit to `"No Solution"`; every other parsed value
reaches `fullMask = (1ULL << boardSize) - 1` (undefined for negative or
≥ 64 shift amounts) and then the search. -/
def main (input : Option Int) : MainOutcome :=
  match input with
  | none => .invalidInput
  | some n =>
    if n = 2 ∨ n = 3 then .noSolution
    else if n < 0 ∨ 64 ≤ n then .undefinedShift
    else
      let s := solveWithSymmetry n.toNat
      .completed n.toNat s.count s.out

end Part000

namespace Part001

/-- `main` from `part_001` (lines 156-212): same dispatch as `solver.cpp`'s
`main`, running this file's solver. -/
def main (input : Option Int) : MainOutcome :=
  match input with
  | none => .invalidInput
  | some n =>
    if n < 4 ∧ n ≠ 1 then .noSolution
    else if 64 ≤ n then .undefinedShift
    else
      let s := solveWithSymmetry n.toNat
      .completed n.toNat s.count s.out

end Part001

/-- A valid non-attacking full placement, exactly as the spec states it:
`N` column values, each in `1..N`, pairwise distinct, and for every pair of
rows `i ≠ j` the absolute column difference differs from `|i - j|`. -/
def ValidPlacement (N : Nat) (r : List Nat) : Prop :=
  r.length = N ∧
  (∀ i : Fin r.length, 1 ≤ r.get i ∧ r.get i ≤ N) ∧
  ∀ i j : Fin r.length, (i : Nat) ≠ (j : Nat) →
    r.get i ≠ r.get j ∧
    ((r.get i : Int) - (r.get j : Int)).natAbs ≠ (((i : Nat) : Int) - ((j : Nat) : Int)).natAbs

instance (N : Nat) (r : List Nat) : Decidable (ValidPlacement N r) := by
  unfold ValidPlacement; infer_instance

/-- The number of set bits of a 64-bit word (the occupied-columns mask lives
in a `uint64_t`). -/
def popcount (n : Nat) : Nat :=
  ((Finset.range 64).filter (fun i => n.testBit i)).card

/-- The decimal digits of `x`, as written by `writeInt` / `writeNumber`
(digit characters collected least-significant first into a scratch buffer,
then emitted in reverse); `go` carries the buffer and fuel bounding the
digit count (16 in the C++ scratch array; any fuel past the digit count
gives the same output). -/
def writeIntDigits (x : Nat) : List Char :=
  go 16 x []
where
  /-- emit-in-reverse accumulator: `go fuel x acc` prepends the digits of
  `x` (least significant first, so the most significant ends first). -/
  go : Nat → Nat → List Char → List Char
    | 0, _, acc => acc
    | f + 1, x, acc =>
      let acc2 := Char.ofNat ('0'.toNat + x % 10) :: acc
      if x / 10 = 0 then acc2 else go f (x / 10) acc2

/-- One sink line as `printSolution` formats it: the values separated by
single spaces, newline-terminated. -/
def formatRecord (r : List Nat) : List Char :=
  match r with
  | [] => ['\n']
  | [x] => writeIntDigits x ++ ['\n']
  | x :: xs => writeIntDigits x ++ [' '] ++ formatRecord xs

/-- The whole byte stream the sink receives: the concatenation of the
formatted records in emission order. -/
def formatRecords (rs : List (List Nat)) : List Char :=
  rs.flatMap formatRecord

/-- The argument tuple of one recursive `solve` invocation: the three
bitmasks plus the placement prefix at the call. -/
structure CallArgs where
  cols : Nat
  dl : Nat
  dr : Nat
  path : List Nat
deriving DecidableEq, Repr

/-- The argument tuples of the recursive calls that `Solver.solve` issues
from a call with arguments `a` (product of the candidate loop): one per set
bit of the available mask, in increasing order, each extending the parent
placement with its own column only. -/
def childCalls (N : Nat) (a : CallArgs) : List CallArgs :=
  if a.cols = limit N then []
  else
    (bitIndices (availableMask N a.cols a.dl a.dr)).map
      (fun j =>
        ⟨a.cols ||| 2 ^ j, ((a.dl ||| 2 ^ j) <<< 1) % 2 ^ 64,
          (a.dr ||| 2 ^ j) >>> 1, a.path ++ [j + 1]⟩)

/-- Reachability in the call tree of the recursive solver: `Reaches N a b`
holds when a call with arguments `a` (transitively) issues a call with
arguments `b`. -/
inductive Reaches (N : Nat) : CallArgs → CallArgs → Prop
  | refl (a : CallArgs) : Reaches N a a
  | step {a b c : CallArgs} : Reaches N a b → c ∈ childCalls N b → Reaches N a c

/-! Basic facts about the bit-level helpers. -/

theorem mem_bitIndices {j p : Nat} :
    j ∈ bitIndices p ↔ j < 64 ∧ p.testBit j = true := by
  simp [bitIndices, List.mem_filter, List.mem_range]

theorem testBit_limit (N j : Nat) : (limit N).testBit j = decide (j < N) := by
  simp [limit, Nat.testBit_two_pow_sub_one]

theorem testBit_compl64 {x j : Nat} (hj : j < 64) :
    (compl64 x).testBit j = !(x.testBit j) := by
  simp only [compl64, Nat.testBit_xor, Nat.testBit_two_pow_sub_one]
  simp [hj]

theorem bitIndices_avail {N cols dl dr j : Nat}
    (h : j ∈ bitIndices (availableMask N cols dl dr)) :
    j < 64 ∧ j < N ∧ cols.testBit j = false ∧ dl.testBit j = false ∧
      dr.testBit j = false := by
  rcases mem_bitIndices.1 h with ⟨hj64, hbit⟩
  have hland := hbit
  rw [availableMask, Nat.testBit_and, testBit_limit, Bool.and_eq_true,
    testBit_compl64 hj64, Bool.not_eq_true', Nat.testBit_or, Nat.testBit_or,
    Bool.or_eq_false_iff, Bool.or_eq_false_iff] at hland
  rcases hland with ⟨⟨⟨hc, hl⟩, hr⟩, hN⟩
  exact ⟨hj64, by simpa using hN, hc, hl, hr⟩

theorem popcount_lor_two_pow {n j : Nat} (hj : j < 64) (h : n.testBit j = false) :
    popcount (n ||| 2 ^ j) = popcount n + 1 := by
  unfold popcount
  have hset :
      (Finset.range 64).filter (fun i => (n ||| 2 ^ j).testBit i) =
        insert j ((Finset.range 64).filter (fun i => n.testBit i)) := by
    ext i
    simp only [Finset.mem_insert, Finset.mem_filter, Finset.mem_range,
      Nat.testBit_or, Bool.or_eq_true]
    constructor
    · rintro ⟨hi, hn | hp⟩
      · exact Or.inr ⟨hi, hn⟩
      · left
        by_contra hne
        rw [Nat.testBit_two_pow_of_ne (fun hq => hne hq.symm)] at hp
        exact Bool.false_ne_true hp
    · rintro (rfl | ⟨hi, hn⟩)
      · exact ⟨hj, Or.inr Nat.testBit_two_pow_self⟩
      · exact ⟨hi, Or.inl hn⟩
  rw [hset, Finset.card_insert_of_not_mem]
  simp [Finset.mem_filter, h]

theorem popcount_limit {N : Nat} (hN : N ≤ 64) : popcount (limit N) = N := by
  unfold popcount
  have hset :
      (Finset.range 64).filter (fun i => (limit N).testBit i) = Finset.range N := by
    ext i
    simp only [Finset.mem_filter, Finset.mem_range, testBit_limit, decide_eq_true_eq]
    omega
  rw [hset, Finset.card_range]

/-- The inductive invariant of one recursive call of the bitmask search:
`path` is the 1-indexed placement so far, and each mask carries (at least)
the bits of the attacks the placed queens aim at the current row.  The
left-diagonal characterization is restricted to the 64-bit window, since
bits shifted past position 63 are dropped by the `uint64_t` shift. -/
structure SearchInv (N cols dl dr : Nat) (path : List Nat) : Prop where
  colsLt : cols < 2 ^ 64
  entries : ∀ (i : Nat) (h : i < path.length), 1 ≤ path[i] ∧ path[i] ≤ N ∧ path[i] ≤ 64
  colsMp : ∀ (i : Nat) (h : i < path.length), cols.testBit (path[i] - 1) = true
  dlMp : ∀ (i : Nat) (h : i < path.length), ∀ k, k < 64 →
    path[i] + (path.length - i) = k + 1 → dl.testBit k = true
  drMp : ∀ (i : Nat) (h : i < path.length), ∀ k,
    path[i] = k + 1 + (path.length - i) → dr.testBit k = true
  pcount : popcount cols = path.length
  ok : ∀ (i j : Nat) (hi : i < path.length) (hj : j < path.length), i < j →
    path[i] ≠ path[j] ∧ path[i] + (j - i) ≠ path[j] ∧ path[j] + (j - i) ≠ path[i]

/-- The invariant at the empty root call. -/
theorem searchInv_root (N : Nat) : SearchInv N 0 0 0 [] := by
  constructor
  · norm_num
  · intro i h; simp at h
  · intro i h; simp at h
  · intro i h; simp at h
  · intro i h; simp at h
  · decide
  · intro i j hi hj; simp at hi

/-- Choosing a candidate bit `j` of the available mask preserves the
invariant: this is the step from a call to each of its recursive calls. -/
theorem searchInv_extend {N cols dl dr : Nat} {path : List Nat} {j : Nat}
    (inv : SearchInv N cols dl dr path)
    (hj : j ∈ bitIndices (availableMask N cols dl dr)) :
    SearchInv N (cols ||| 2 ^ j) (((dl ||| 2 ^ j) <<< 1) % 2 ^ 64)
      ((dr ||| 2 ^ j) >>> 1) (path ++ [j + 1]) := by
  obtain ⟨hj64, hjN, hc, hl, hr⟩ := bitIndices_avail hj
  have hlen : (path ++ [j + 1]).length = path.length + 1 := by simp
  have hget_lt : ∀ (i : Nat) (h : i < path.length),
      getElem (path ++ [j + 1]) i (by simp; omega) = path[i] := fun i h =>
    List.getElem_append_left h
  have hget_last : getElem (path ++ [j + 1]) path.length (by simp) = j + 1 :=
    List.getElem_concat_length _ _ _ rfl _
  constructor
  · -- colsLt
    apply Nat.lt_pow_two_of_testBit
    intro i hi
    rw [Nat.testBit_or, Nat.testBit_two_pow_of_ne (by omega),
      Nat.testBit_lt_two_pow
        (lt_of_lt_of_le inv.colsLt (Nat.pow_le_pow_right (by norm_num) hi))]
    rfl
  · -- entries
    intro i h
    rcases Nat.lt_or_ge i path.length with hi | hi
    · rw [hget_lt i hi]; exact inv.entries i hi
    · have : i = path.length := by rw [hlen] at h; omega
      subst this
      rw [hget_last]
      exact ⟨by omega, by omega, by omega⟩
  · -- colsMp
    intro i h
    rcases Nat.lt_or_ge i path.length with hi | hi
    · rw [hget_lt i hi, Nat.testBit_or, inv.colsMp i hi]; rfl
    · have : i = path.length := by rw [hlen] at h; omega
      subst this
      rw [hget_last, Nat.testBit_or]
      simp [Nat.testBit_two_pow_self]
  · -- dlMp
    intro i h k hk64 hk
    rw [Nat.testBit_mod_two_pow]
    have hk64d : (decide (k < 64) : Bool) = true := by simp [hk64]
    rw [hk64d, Bool.true_and, Nat.testBit_shiftLeft]
    rcases Nat.lt_or_ge i path.length with hi | hi
    · rw [hget_lt i hi] at hk
      rw [hlen] at hk
      have h1 : 1 ≤ path[i] := (inv.entries i hi).1
      have hbit : (dl ||| 2 ^ j).testBit (k - 1) = true := by
        rw [Nat.testBit_or, inv.dlMp i hi (k - 1) (by omega) (by omega)]
        rfl
      rw [hbit, Bool.and_true]
      simp
      omega
    · have : i = path.length := by rw [hlen] at h; omega
      subst this
      rw [hget_last] at hk
      rw [hlen] at hk
      have hkj : k = j + 1 := by omega
      subst hkj
      have hbit : (dl ||| 2 ^ j).testBit (j + 1 - 1) = true := by
        rw [Nat.add_sub_cancel, Nat.testBit_or, Nat.testBit_two_pow_self,
          Bool.or_true]
      rw [hbit, Bool.and_true]
      simp
  · -- drMp
    intro i h k hk
    rw [Nat.testBit_shiftRight, Nat.testBit_or]
    have hadd : 1 + k = k + 1 := Nat.add_comm 1 k
    rcases Nat.lt_or_ge i path.length with hi | hi
    · rw [hget_lt i hi] at hk
      rw [hlen] at hk
      rw [hadd, inv.drMp i hi (k + 1) (by omega)]
      rfl
    · have : i = path.length := by rw [hlen] at h; omega
      subst this
      rw [hget_last] at hk
      rw [hlen] at hk
      have hkj : 1 + k = j := by omega
      rw [hkj, Nat.testBit_two_pow_self, Bool.or_true]
  · -- pcount
    rw [popcount_lor_two_pow hj64 hc, inv.pcount, hlen]
  · -- ok
    intro i j2 hi hj2 hij
    rcases Nat.lt_or_ge j2 path.length with hj2p | hj2p
    · have hi2 : i < path.length := by omega
      rw [hget_lt i hi2, hget_lt j2 hj2p]
      exact inv.ok i j2 hi2 hj2p hij
    · have : j2 = path.length := by rw [hlen] at hj2; omega
      subst this
      have hi2 : i < path.length := by omega
      rw [hget_lt i hi2, hget_last]
      have h1 : 1 ≤ path[i] := (inv.entries i hi2).1
      refine ⟨?_, ?_, ?_⟩
      · intro hcontra
        have hcb := inv.colsMp i hi2
        rw [hcontra, Nat.add_sub_cancel] at hcb
        rw [hcb] at hc
        simp at hc
      · intro hcontra
        have hdb := inv.dlMp i hi2 j hj64 (by omega)
        rw [hdb] at hl
        simp at hl
      · intro hcontra
        have hrb := inv.drMp i hi2 j (by omega)
        rw [hrb] at hr
        simp at hr

/-- At the base case (`cols = LIMIT`) the invariant yields a valid
non-attacking full placement. -/
theorem searchInv_full_valid {N cols dl dr : Nat} {path : List Nat}
    (inv : SearchInv N cols dl dr path) (hfull : cols = limit N) :
    ValidPlacement N path := by
  have hN64 : N ≤ 64 := by
    by_contra hgt
    have h1 : (2 : Nat) ^ 64 < 2 ^ N := Nat.pow_lt_pow_right (by norm_num) (by omega)
    have h2 : cols < 2 ^ 64 := inv.colsLt
    rw [hfull] at h2
    unfold limit at h2
    have h3 : (1 : Nat) ≤ 2 ^ 64 := Nat.one_le_two_pow
    omega
  have hlen : path.length = N := by
    have := inv.pcount
    rw [hfull, popcount_limit hN64] at this
    omega
  refine ⟨hlen, ?_, ?_⟩
  · intro i
    have h := inv.entries i i.isLt
    simp only [List.get_eq_getElem]
    exact ⟨h.1, h.2.1⟩
  · intro i j hij
    simp only [List.get_eq_getElem]
    rcases Nat.lt_or_ge (i : Nat) (j : Nat) with h | h
    · obtain ⟨hne, hd1, hd2⟩ := inv.ok i j i.isLt j.isLt h
      refine ⟨hne, ?_⟩
      have e1 : 1 ≤ path[(i : Nat)] := (inv.entries i i.isLt).1
      have e2 : 1 ≤ path[(j : Nat)] := (inv.entries j j.isLt).1
      omega
    · have hji : (j : Nat) < (i : Nat) := by omega
      obtain ⟨hne, hd1, hd2⟩ := inv.ok j i j.isLt i.isLt hji
      refine ⟨fun hcontra => hne hcontra.symm, ?_⟩
      have e1 : 1 ≤ path[(i : Nat)] := (inv.entries i i.isLt).1
      have e2 : 1 ≤ path[(j : Nat)] := (inv.entries j j.isLt).1
      omega

/-- Mirroring a valid placement yields a valid placement. -/
theorem validPlacement_mirror {N : Nat} {r : List Nat}
    (hv : ValidPlacement N r) : ValidPlacement N (mirror N r) := by
  obtain ⟨hlen, hent, hpair⟩ := hv
  have hmlen : (mirror N r).length = r.length := by simp [mirror]
  have hmget : ∀ (i : Nat) (h : i < r.length),
      getElem (mirror N r) i (by rw [hmlen]; exact h) = N + 1 - r[i] := by
    intro i h
    simp [mirror]
  refine ⟨by rw [hmlen, hlen], ?_, ?_⟩
  · intro i
    have hi : (i : Nat) < r.length := by rw [← hmlen]; exact i.isLt
    have h := hent ⟨(i : Nat), hi⟩
    simp only [List.get_eq_getElem] at h ⊢
    rw [hmget (i : Nat) hi]
    omega
  · intro i j hij
    have hi : (i : Nat) < r.length := by rw [← hmlen]; exact i.isLt
    have hj : (j : Nat) < r.length := by rw [← hmlen]; exact j.isLt
    have hp := hpair ⟨(i : Nat), hi⟩ ⟨(j : Nat), hj⟩ hij
    obtain ⟨hne, habs⟩ := hp
    simp only [List.get_eq_getElem] at hne habs ⊢
    rw [hmget (i : Nat) hi, hmget (j : Nat) hj]
    have e1 := hent ⟨(i : Nat), hi⟩
    have e2 := hent ⟨(j : Nat), hj⟩
    simp only [List.get_eq_getElem] at e1 e2
    constructor
    · omega
    · omega

theorem solve_unfold (N fuel cols dl dr : Nat) (path : List Nat)
    (count : Nat) (stop : Bool) (out : List (List Nat)) :
    Solver.solve N fuel cols dl dr path ⟨count, stop, out⟩ =
      if stop then ⟨count, stop, out⟩
      else if cols = limit N then
        if Solver.FIND_ALL_LIMIT ≤ N ∧ Solver.MAX_SOLUTIONS_LARGE_N ≤ count + 1 then
          ⟨count + 1, true, out ++ [path]⟩
        else ⟨count + 1, stop, out ++ [path]⟩
      else
        match fuel with
        | 0 => ⟨count, stop, out⟩
        | f + 1 =>
          (bitIndices (availableMask N cols dl dr)).foldl
            (fun st j =>
              if st.stop then st
              else
                Solver.solve N f (cols ||| 2 ^ j) (((dl ||| 2 ^ j) <<< 1) % 2 ^ 64)
                  ((dr ||| 2 ^ j) >>> 1) (path ++ [j + 1]) st)
            ⟨count, stop, out⟩ := by
  cases fuel <;> rfl

/-- Generic fold lemma: if every step of a fold extends the sink by records
satisfying an append-closed property, so does the whole fold. -/
theorem foldl_out_ext (f : SolveState → Nat → SolveState)
    (P : List (List Nat) → Prop) (Pnil : P [])
    (Papp : ∀ a b, P a → P b → P (a ++ b)) :
    ∀ (l : List Nat),
      (∀ s j, j ∈ l → ∃ t, (f s j).out = s.out ++ t ∧ P t) →
      ∀ s, ∃ t, (l.foldl f s).out = s.out ++ t ∧ P t := by
  intro l
  induction l with
  | nil => intro _ s; exact ⟨[], by simp, Pnil⟩
  | cons a l ihl =>
    intro hstep s
    rw [List.foldl_cons]
    obtain ⟨t1, ht1, hp1⟩ := hstep s a (List.mem_cons_self a l)
    obtain ⟨t2, ht2, hp2⟩ :=
      ihl (fun s2 j hj => hstep s2 j (List.mem_cons_of_mem a hj)) (f s a)
    exact ⟨t1 ++ t2, by rw [ht2, ht1, List.append_assoc], Papp t1 t2 hp1 hp2⟩

/-- Generic fold lemma: a state property preserved by every step is
preserved by the whole fold. -/
theorem foldl_pres (f : SolveState → Nat → SolveState)
    (Q : SolveState → Prop) :
    ∀ (l : List Nat), (∀ s j, j ∈ l → Q s → Q (f s j)) →
      ∀ s, Q s → Q (l.foldl f s) := by
  intro l
  induction l with
  | nil => intro _ s h; exact h
  | cons a l ihl =>
    intro hstep s h
    rw [List.foldl_cons]
    exact ihl (fun s2 j hj => hstep s2 j (List.mem_cons_of_mem a hj)) (f s a)
      (hstep s a (List.mem_cons_self a l) h)

/-- Under the search invariant, `Solver.solve` only appends valid
placements to the sink. -/
theorem solve_valid (N : Nat) :
    ∀ (fuel cols dl dr : Nat) (path : List Nat) (s : SolveState),
      SearchInv N cols dl dr path →
      ∃ t : List (List Nat),
        (Solver.solve N fuel cols dl dr path s).out = s.out ++ t ∧
        ∀ r ∈ t, ValidPlacement N r ∧ ∃ t2, r = path ++ t2 := by
  intro fuel
  induction fuel with
  | zero =>
    intro cols dl dr path s inv
    obtain ⟨count, stop, out⟩ := s
    rw [solve_unfold]
    split
    · exact ⟨[], by simp, by simp⟩
    split
    next hfull =>
      split
      · refine ⟨[path], by simp, ?_⟩
        intro r hr
        rw [List.mem_singleton] at hr
        subst hr
        exact ⟨searchInv_full_valid inv hfull, [], by simp⟩
      · refine ⟨[path], by simp, ?_⟩
        intro r hr
        rw [List.mem_singleton] at hr
        subst hr
        exact ⟨searchInv_full_valid inv hfull, [], by simp⟩
    exact ⟨[], by simp, by simp⟩
  | succ f ih =>
    intro cols dl dr path s inv
    obtain ⟨count, stop, out⟩ := s
    rw [solve_unfold]
    split
    · exact ⟨[], by simp, by simp⟩
    split
    next hfull =>
      split
      · refine ⟨[path], by simp, ?_⟩
        intro r hr
        rw [List.mem_singleton] at hr
        subst hr
        exact ⟨searchInv_full_valid inv hfull, [], by simp⟩
      · refine ⟨[path], by simp, ?_⟩
        intro r hr
        rw [List.mem_singleton] at hr
        subst hr
        exact ⟨searchInv_full_valid inv hfull, [], by simp⟩
    next hfull =>
      refine foldl_out_ext _ _ (by simp) ?_ _ ?_ _
      · intro a b ha hb r hr
        rcases List.mem_append.1 hr with h | h
        · exact ha r h
        · exact hb r h
      · intro s2 j hj
        by_cases hstop : s2.stop = true
        · rw [if_pos hstop]
          exact ⟨[], by simp, by simp⟩
        · rw [if_neg hstop]
          obtain ⟨t, ht, hrt⟩ := ih _ _ _ _ s2 (searchInv_extend inv hj)
          refine ⟨t, ht, ?_⟩
          intro r hr
          obtain ⟨hval, t2, ht2⟩ := hrt r hr
          exact ⟨hval, (j + 1) :: t2, by rw [ht2, List.append_assoc]; rfl⟩

/-- Under the search invariant, `Solver.symmetricSolve` appends to the sink
a flat list of (solution, mirrored solution) pairs, where each solution is a
valid placement extending the placement prefix of the call. -/
theorem symmetricSolve_struct (N : Nat) :
    ∀ (fuel cols dl dr : Nat) (path : List Nat) (s : SolveState),
      SearchInv N cols dl dr path →
      ∃ ps : List (List Nat),
        (Solver.symmetricSolve N fuel cols dl dr path s).out =
          s.out ++ ps.flatMap (fun p => [p, mirror N p]) ∧
        ∀ p ∈ ps, ValidPlacement N p ∧ ∃ t2, p = path ++ t2 := by
  have hunfold : ∀ (fuel cols dl dr : Nat) (path : List Nat) (count : Nat)
      (stop : Bool) (out : List (List Nat)),
      Solver.symmetricSolve N fuel cols dl dr path ⟨count, stop, out⟩ =
        if cols = limit N then
          ⟨count + 1 + 1, stop, (out ++ [path]) ++ [mirror N path]⟩
        else
          match fuel with
          | 0 => ⟨count, stop, out⟩
          | f + 1 =>
            (bitIndices (availableMask N cols dl dr)).foldl
              (fun st j =>
                Solver.symmetricSolve N f (cols ||| 2 ^ j)
                  (((dl ||| 2 ^ j) <<< 1) % 2 ^ 64) ((dr ||| 2 ^ j) >>> 1)
                  (path ++ [j + 1]) st)
              ⟨count, stop, out⟩ := by
    intro fuel cols dl dr path count stop out
    cases fuel <;> rfl
  intro fuel
  induction fuel with
  | zero =>
    intro cols dl dr path s inv
    obtain ⟨count, stop, out⟩ := s
    rw [hunfold]
    split
    next hfull =>
      refine ⟨[path], by simp, ?_⟩
      intro p hp
      rw [List.mem_singleton] at hp
      subst hp
      exact ⟨searchInv_full_valid inv hfull, [], by simp⟩
    exact ⟨[], by simp, by simp⟩
  | succ f ih =>
    intro cols dl dr path s inv
    obtain ⟨count, stop, out⟩ := s
    rw [hunfold]
    split
    next hfull =>
      refine ⟨[path], by simp, ?_⟩
      intro p hp
      rw [List.mem_singleton] at hp
      subst hp
      exact ⟨searchInv_full_valid inv hfull, [], by simp⟩
    next hfull =>
      have hgen := foldl_out_ext
        (fun st j =>
          Solver.symmetricSolve N f (cols ||| 2 ^ j)
            (((dl ||| 2 ^ j) <<< 1) % 2 ^ 64) ((dr ||| 2 ^ j) >>> 1)
            (path ++ [j + 1]) st)
        (fun t => ∃ ps : List (List Nat),
          t = ps.flatMap (fun p => [p, mirror N p]) ∧
          ∀ p ∈ ps, ValidPlacement N p ∧ ∃ t2, p = path ++ t2)
        ⟨[], by simp, by simp⟩
        ?_ (bitIndices (availableMask N cols dl dr)) ?_ ⟨count, stop, out⟩
      · obtain ⟨t, ht, ps, hps, hprop⟩ := hgen
        exact ⟨ps, by rw [ht, hps], hprop⟩
      · rintro a b ⟨psa, rfl, hpa⟩ ⟨psb, rfl, hpb⟩
        refine ⟨psa ++ psb, by rw [List.flatMap_append], ?_⟩
        intro p hp
        rcases List.mem_append.1 hp with h | h
        · exact hpa p h
        · exact hpb p h
      · intro s2 j hj
        obtain ⟨ps, hps, hprop⟩ := ih _ _ _ _ s2 (searchInv_extend inv hj)
        refine ⟨ps.flatMap (fun p => [p, mirror N p]), hps, ps, rfl, ?_⟩
        intro p hp
        obtain ⟨hval, t2, ht2⟩ := hprop p hp
        exact ⟨hval, (j + 1) :: t2, by rw [ht2, List.append_assoc]; rfl⟩

/-- The invariant of the seeded calls the symmetry driver makes: one queen
placed in the first row at 0-indexed column `col`. -/
theorem searchInv_first {N col : Nat} (hN : col < N) (h64 : col < 64) :
    SearchInv N (2 ^ col) (2 ^ col <<< 1) (2 ^ col >>> 1) [col + 1] := by
  have hpc : popcount (2 ^ col) = 1 := by
    have h0 : popcount 0 = 0 := by simp [popcount]
    have h := popcount_lor_two_pow (n := 0) h64 (by simp)
    rw [Nat.zero_or, h0] at h
    exact h
  constructor
  · exact Nat.pow_lt_pow_right (by norm_num) h64
  · intro i h
    simp only [List.length_singleton] at h
    have : i = 0 := by omega
    subst this
    simp only [List.getElem_singleton]
    omega
  · intro i h
    simp only [List.length_singleton] at h
    have : i = 0 := by omega
    subst this
    simp only [List.getElem_singleton, Nat.add_sub_cancel]
    exact Nat.testBit_two_pow_self
  · intro i h k hk64 hk
    simp only [List.length_singleton] at h
    have : i = 0 := by omega
    subst this
    simp only [List.getElem_singleton, List.length_singleton] at hk
    have : k = col + 1 := by omega
    subst this
    rw [Nat.testBit_shiftLeft]
    have : col + 1 - 1 = col := by omega
    rw [this, Nat.testBit_two_pow_self]
    simp
  · intro i h k hk
    simp only [List.length_singleton] at h
    have : i = 0 := by omega
    subst this
    simp only [List.getElem_singleton, List.length_singleton] at hk
    have hcol1 : 1 ≤ col := by omega
    have : k = col - 1 := by omega
    subst this
    rw [Nat.testBit_shiftRight]
    have : 1 + (col - 1) = col := by omega
    rw [this]
    exact Nat.testBit_two_pow_self
  · simpa using hpc
  · intro i j hi hj hij
    simp only [List.length_singleton] at hi hj
    omega

/-- The full structure of the sink after `Solver.solveWithSymmetry`: a flat
list of (solution, mirror) pairs produced by the symmetry-optimized phase —
each solution valid, with a first-half first-row column — followed by the
valid solutions of the remaining (middle-column or large-board) plain
search. -/
theorem solveWithSymmetry_struct (N : Nat) :
    ∃ ps rest : List (List Nat),
      (Solver.solveWithSymmetry N).out =
        ps.flatMap (fun p => [p, mirror N p]) ++ rest ∧
      (∀ p ∈ ps, ValidPlacement N p ∧ ∃ c t2, c < N / 2 ∧ p = (c + 1) :: t2) ∧
      (∀ r ∈ rest, ValidPlacement N r ∧
        (N < Solver.FIND_ALL_LIMIT → ∃ t2, r = (N / 2 + 1) :: t2)) := by
  unfold Solver.solveWithSymmetry
  split
  next hbig =>
    obtain ⟨t, ht, hv⟩ := solve_valid N N 0 0 0 [] initState (searchInv_root N)
    refine ⟨[], t, ?_, by simp, ?_⟩
    · rw [ht]
      simp [initState]
    · intro r hr
      exact ⟨(hv r hr).1, fun hlt => absurd hbig (Nat.not_le.mpr hlt)⟩
  next hsmall =>
    have hN21 : N < 21 := by
      by_contra hge
      exact hsmall (by unfold Solver.FIND_ALL_LIMIT; omega)
    have hfold := foldl_out_ext
      (fun st col =>
        Solver.symmetricSolve N N (2 ^ col) (2 ^ col <<< 1) (2 ^ col >>> 1)
          [col + 1] st)
      (fun t => ∃ ps : List (List Nat),
        t = ps.flatMap (fun p => [p, mirror N p]) ∧
        ∀ p ∈ ps, ValidPlacement N p ∧ ∃ c t2, c < N / 2 ∧ p = (c + 1) :: t2)
      ⟨[], by simp, by simp⟩
      ?_ (List.range (N / 2)) ?_ initState
    · obtain ⟨t, ht, ps, hps, hprop⟩ := hfold
      subst hps
      split
      next hodd =>
        obtain ⟨t2, ht2, hv2⟩ := solve_valid N N _ _ _ [N / 2 + 1] _
          (searchInv_first (Nat.div_lt_self (by omega) (by omega)) (by omega))
        refine ⟨ps, t2, ?_, hprop, ?_⟩
        · rw [ht2, ht]
          simp [initState]
        · intro r hr
          obtain ⟨hval, t3, ht3⟩ := hv2 r hr
          exact ⟨hval, fun _ => ⟨t3, by rw [ht3]; rfl⟩⟩
      next heven =>
        refine ⟨ps, [], ?_, hprop, by simp⟩
        rw [ht]
        simp [initState]
    · rintro a b ⟨psa, rfl, hpa⟩ ⟨psb, rfl, hpb⟩
      refine ⟨psa ++ psb, by rw [List.flatMap_append], ?_⟩
      intro p hp
      rcases List.mem_append.1 hp with h | h
      · exact hpa p h
      · exact hpb p h
    · intro s2 col hcol
      rw [List.mem_range] at hcol
      have hcolN : col < N := lt_of_lt_of_le hcol (Nat.div_le_self N 2)
      obtain ⟨ps, hps, hprop⟩ := symmetricSolve_struct N N _ _ _ [col + 1] s2
        (searchInv_first hcolN (by omega))
      refine ⟨ps.flatMap (fun p => [p, mirror N p]), hps, ps, rfl, ?_⟩
      intro p hp
      obtain ⟨hval, t2, ht2⟩ := hprop p hp
      exact ⟨hval, col, t2, hcol, by rw [ht2]; rfl⟩

/-- Claim C1: every solution emitted by the search (each record handed to the
solution-printing routine), for every board size the search runs on, is an
ordered sequence of exactly `N` column values in `1..N`, pairwise distinct,
and for every pair of rows `i ≠ j` the absolute column difference differs
from `|i - j|`. -/
theorem emitted_solutions_valid (N : Nat) (r : List Nat)
    (hr : r ∈ (Solver.solveWithSymmetry N).out) : ValidPlacement N r := by
  obtain ⟨ps, rest, hout, hps, hrest⟩ := solveWithSymmetry_struct N
  rw [hout] at hr
  rcases List.mem_append.1 hr with h | h
  · obtain ⟨p, hp, hmem⟩ := List.mem_flatMap.1 h
    have hval := (hps p hp).1
    rcases List.mem_cons.1 hmem with rfl | hmem2
    · exact hval
    · rw [List.mem_singleton] at hmem2
      subst hmem2
      exact validPlacement_mirror hval
  · exact (hrest r h).1

theorem emitted_solutions_valid_witness :
    [2, 4, 1, 3] ∈ (Solver.solveWithSymmetry 4).out ∧ ValidPlacement 4 [2, 4, 1, 3] :=
  ⟨by decide, emitted_solutions_valid 4 [2, 4, 1, 3] (by decide)⟩

/-- In a sink laid out as (solution, mirror) pairs followed by records whose
head column is not in the first half-row, any record whose head column IS in
the first half-row sits at the first slot of one of the pairs, so the very
next record is its mirror. -/
theorem paired_output (N : Nat) :
    ∀ (ps rest out : List (List Nat)),
      out = ps.flatMap (fun p => [p, mirror N p]) ++ rest →
      (∀ p ∈ ps, ∃ c t2, c < N / 2 ∧ p = (c + 1) :: t2) →
      (∀ p ∈ ps, ∀ c2 t2, mirror N p = (c2 + 1) :: t2 → ¬ c2 < N / 2) →
      (∀ r ∈ rest, ∀ c2 t2, r = (c2 + 1) :: t2 → ¬ c2 < N / 2) →
      ∀ (i c : Nat) (hi : i < out.length),
        (getElem out i hi).head? = some (c + 1) → c < N / 2 →
        ∃ h2 : i + 1 < out.length,
          getElem out (i + 1) h2 = mirror N (getElem out i hi) ∧
          getElem out i hi ∈ ps := by
  have hshape : ∀ (l : List Nat) (c : Nat), l.head? = some (c + 1) →
      ∃ t2, l = (c + 1) :: t2 := by
    intro l c hl
    cases l with
    | nil => simp at hl
    | cons a t =>
      simp only [List.head?_cons, Option.some.injEq] at hl
      exact ⟨t, by rw [hl]⟩
  intro ps
  induction ps with
  | nil =>
    intro rest out hout hps hpsm hrest i c hi hhead hc
    exfalso
    have hmem : getElem out i hi ∈ rest := by
      rw [List.flatMap_nil, List.nil_append] at hout
      rw [← hout]
      exact List.getElem_mem hi
    obtain ⟨t2, ht2⟩ := hshape _ c hhead
    exact hrest _ hmem c t2 ht2 hc
  | cons p ps ih =>
    intro rest out hout hps hpsm hrest i c hi hhead hc
    have hout2 : out =
        p :: mirror N p :: (ps.flatMap (fun q => [q, mirror N q]) ++ rest) := by
      rw [hout]
      simp
    subst hout2
    match i, hi with
    | 0, hi =>
      refine ⟨by simp, by simp, List.mem_cons_self p _⟩
    | 1, hi =>
      exfalso
      have hget : getElem
          (p :: mirror N p :: (ps.flatMap (fun q => [q, mirror N q]) ++ rest))
          1 hi = mirror N p := by simp
      rw [hget] at hhead
      obtain ⟨t2, ht2⟩ := hshape _ c hhead
      exact hpsm p (List.mem_cons_self p ps) c t2 ht2 hc
    | k + 2, hi =>
      have hik : k < (ps.flatMap (fun q => [q, mirror N q]) ++ rest).length := by
        simp only [List.length_cons] at hi
        omega
      have hgetk : ∀ (m : Nat)
          (hm : m < (ps.flatMap (fun q => [q, mirror N q]) ++ rest).length),
          getElem
            (p :: mirror N p :: (ps.flatMap (fun q => [q, mirror N q]) ++ rest))
            (m + 2) (by simp only [List.length_cons]; omega) =
          getElem (ps.flatMap (fun q => [q, mirror N q]) ++ rest) m hm := by
        intro m hm
        simp
      have hhead2 : (getElem (ps.flatMap (fun q => [q, mirror N q]) ++ rest)
          k hik).head? = some (c + 1) := by
        rw [← hgetk k hik]
        exact hhead
      obtain ⟨h2, heq, hmem⟩ := ih rest _ rfl
        (fun q hq => hps q (List.mem_cons_of_mem p hq))
        (fun q hq => hpsm q (List.mem_cons_of_mem p hq))
        hrest k c hik hhead2 hc
      refine ⟨by simp only [List.length_cons]; omega, ?_, ?_⟩
      · show getElem
          (p :: mirror N p :: (ps.flatMap (fun q => [q, mirror N q]) ++ rest))
          (k + 1 + 2) (by simp only [List.length_cons]; omega) =
          mirror N (getElem
            (p :: mirror N p :: (ps.flatMap (fun q => [q, mirror N q]) ++ rest))
            (k + 2) hi)
        rw [hgetk (k + 1) h2, hgetk k hik]
        exact heq
      · rw [hgetk k hik]
        exact List.mem_cons_of_mem p hmem

/-- Claim C2: every complete solution found on the symmetry-optimized path —
a record of the search whose first-row column is `c + 1` with 0-indexed
`c < N / 2`, on a board in the symmetry regime — is immediately followed in
the emission order by the mirrored sequence obtained by replacing every
column `x` with `N + 1 - x`, and that mirrored sequence is itself a valid
non-attacking full placement. -/
theorem mirror_law (N : Nat) (hN : N < Solver.FIND_ALL_LIMIT) (i c : Nat)
    (hi : i < (Solver.solveWithSymmetry N).out.length)
    (hhead : (getElem (Solver.solveWithSymmetry N).out i hi).head? = some (c + 1))
    (hc : c < N / 2) :
    ∃ h2 : i + 1 < (Solver.solveWithSymmetry N).out.length,
      getElem (Solver.solveWithSymmetry N).out (i + 1) h2 =
        mirror N (getElem (Solver.solveWithSymmetry N).out i hi) ∧
      ValidPlacement N
        (mirror N (getElem (Solver.solveWithSymmetry N).out i hi)) := by
  obtain ⟨ps, rest, hout, hps, hrest⟩ := solveWithSymmetry_struct N
  have hpsm : ∀ p ∈ ps, ∀ c2 t2, mirror N p = (c2 + 1) :: t2 → ¬ c2 < N / 2 := by
    intro p hp c2 t2 hmir
    obtain ⟨_, c0, t0, hc0, hp0⟩ := hps p hp
    rw [hp0] at hmir
    unfold mirror at hmir
    rw [List.map_cons] at hmir
    have hc2 : N + 1 - (c0 + 1) = c2 + 1 := (List.cons.inj hmir).1
    omega
  have hrest2 : ∀ r ∈ rest, ∀ c2 t2, r = (c2 + 1) :: t2 → ¬ c2 < N / 2 := by
    intro r hr c2 t2 hrt
    obtain ⟨t3, ht3⟩ := (hrest r hr).2 hN
    rw [ht3] at hrt
    have : N / 2 + 1 = c2 + 1 := (List.cons.inj hrt).1
    omega
  obtain ⟨h2, heq, hmem⟩ := paired_output N ps rest _ hout
    (fun p hp => (hps p hp).2) hpsm hrest2 i c hi hhead hc
  exact ⟨h2, heq, validPlacement_mirror (hps _ hmem).1⟩

theorem mirror_law_witness :
    ∃ h2 : 0 + 1 < (Solver.solveWithSymmetry 4).out.length,
      getElem (Solver.solveWithSymmetry 4).out (0 + 1) h2 =
        mirror 4 (getElem (Solver.solveWithSymmetry 4).out 0 (by decide)) ∧
      ValidPlacement 4
        (mirror 4 (getElem (Solver.solveWithSymmetry 4).out 0 (by decide))) :=
  mirror_law 4 (by decide) 0 1 (by decide) (by decide) (by decide)

/-- Cap invariant for `Solver.solve` on large boards: the counter never
passes 1000, and while the stop flag is clear it stays at most 999. -/
theorem solve_cap (N : Nat) (hN : 21 ≤ N) :
    ∀ (fuel cols dl dr : Nat) (path : List Nat) (s : SolveState),
      s.count ≤ 1000 → (s.stop = false → s.count ≤ 999) →
      (Solver.solve N fuel cols dl dr path s).count ≤ 1000 ∧
      ((Solver.solve N fuel cols dl dr path s).stop = false →
        (Solver.solve N fuel cols dl dr path s).count ≤ 999) := by
  have hbase : ∀ (count : Nat) (stop : Bool) (out : List (List Nat)) (path : List Nat),
      count ≤ 1000 → (stop = false → count ≤ 999) →
      ∀ r : SolveState,
        (r = if Solver.FIND_ALL_LIMIT ≤ N ∧ Solver.MAX_SOLUTIONS_LARGE_N ≤ count + 1 then
            ⟨count + 1, true, out ++ [path]⟩
          else ⟨count + 1, stop, out ++ [path]⟩) →
        stop = false →
        r.count ≤ 1000 ∧ (r.stop = false → r.count ≤ 999) := by
    intro count stop out path h1 h2 r hr hsf
    have hc := h2 hsf
    split at hr
    next hcap =>
      subst hr
      refine ⟨by simp; omega, ?_⟩
      intro hfalse
      simp at hfalse
    next hcap =>
      simp only [Solver.FIND_ALL_LIMIT, Solver.MAX_SOLUTIONS_LARGE_N] at hcap
      have hlt : count + 1 ≤ 999 := by
        by_contra hcontra
        exact hcap ⟨hN, by omega⟩
      subst hr
      subst hsf
      exact ⟨by simp; omega, fun _ => by simp; omega⟩
  intro fuel
  induction fuel with
  | zero =>
    intro cols dl dr path s h1 h2
    obtain ⟨count, stop, out⟩ := s
    rw [solve_unfold]
    split
    · exact ⟨h1, h2⟩
    next hstop =>
      have hsf : stop = false := by revert hstop; cases stop <;> simp
      split
      · exact hbase count stop out path h1 h2 _ rfl hsf
      · exact ⟨h1, h2⟩
  | succ f ih =>
    intro cols dl dr path s h1 h2
    obtain ⟨count, stop, out⟩ := s
    rw [solve_unfold]
    split
    · exact ⟨h1, h2⟩
    next hstop =>
      have hsf : stop = false := by revert hstop; cases stop <;> simp
      split
      · exact hbase count stop out path h1 h2 _ rfl hsf
      · have := foldl_pres
          (fun st j =>
            if st.stop then st
            else
              Solver.solve N f (cols ||| 2 ^ j) (((dl ||| 2 ^ j) <<< 1) % 2 ^ 64)
                ((dr ||| 2 ^ j) >>> 1) (path ++ [j + 1]) st)
          (fun st => st.count ≤ 1000 ∧ (st.stop = false → st.count ≤ 999))
          (bitIndices (availableMask N cols dl dr)) ?_ ⟨count, stop, out⟩ ⟨h1, h2⟩
        · exact this
        · intro s2 j hj hq
          by_cases hstop2 : s2.stop = true
          · simpa only [if_pos hstop2] using hq
          · have hr := ih (cols ||| 2 ^ j) (((dl ||| 2 ^ j) <<< 1) % 2 ^ 64)
              ((dr ||| 2 ^ j) >>> 1) (path ++ [j + 1]) s2 hq.1 hq.2
            simpa only [if_neg hstop2] using hr

/-- Claim C5: for every board size at or above the large-board threshold (21), the
reported solution count never exceeds the configured cap (1000); the model
is a total function, so the bounded search terminates on every input. -/
theorem large_board_count_cap (N : Nat) (h : Solver.FIND_ALL_LIMIT ≤ N) :
    (Solver.solveWithSymmetry N).count ≤ Solver.MAX_SOLUTIONS_LARGE_N := by
  unfold Solver.solveWithSymmetry
  rw [if_pos h]
  have h21 : 21 ≤ N := by simpa [Solver.FIND_ALL_LIMIT] using h
  have hcap := solve_cap N h21 N 0 0 0 [] initState (by simp [initState])
    (fun _ => by simp [initState])
  simpa [Solver.MAX_SOLUTIONS_LARGE_N] using hcap.1

theorem large_board_count_cap_witness :
    Solver.FIND_ALL_LIMIT ≤ 21 ∧
      (Solver.solveWithSymmetry 21).count ≤ Solver.MAX_SOLUTIONS_LARGE_N :=
  ⟨by decide, large_board_count_cap 21 (by decide)⟩

/-- Claim C4: on the 4-board the search reports exactly 2 solutions, the records
are exactly `{2,4,1,3}` then `{3,1,4,2}` (so both appear), and each is a
valid non-attacking full placement. -/
theorem four_queens_solutions :
    (Solver.solveWithSymmetry 4).count = 2 ∧
    (Solver.solveWithSymmetry 4).out = [[2, 4, 1, 3], [3, 1, 4, 2]] ∧
    [2, 4, 1, 3] ∈ (Solver.solveWithSymmetry 4).out ∧
    [3, 1, 4, 2] ∈ (Solver.solveWithSymmetry 4).out ∧
    ValidPlacement 4 [2, 4, 1, 3] ∧ ValidPlacement 4 [3, 1, 4, 2] := by
  decide

/-- Claim C10, counterexample: in `part_000` a board size of 0 passes the
unsolvable check and enters `solveWithSymmetry`, but the plain backtracking
search is never invoked (the half-row loop is empty and 0 is even), so the
run completes with solution count 0 and no records — not the count of 1 the
claim asserts. -/
theorem part000_zero_board_reports_zero :
    Part000.main (some 0) = .completed 0 0 [] ∧
    reportedCount (Part000.main (some 0)) ≠ 1 := by
  decide

/-- Claim C10, amended: on board size 0, `part_000` reports 0 solutions and
writes no records, because its symmetry driver never calls `backtrack`; had
`backtrack` been entered on the empty initial state with board size 0, it
would indeed have reported exactly one solution with an empty placement,
since the occupied-columns mask 0 equals the full mask `(1 << 0) - 1 = 0`. -/
theorem part000_zero_board_behaviour :
    Part000.main (some 0) = .completed 0 0 [] ∧
    Part000.backtrack 0 0 0 0 0 [] initState = ⟨1, false, [[]]⟩ := by
  decide

/-- Claim C8: the search output is a pure function of the board size (and the
constant policy), so two runs with the same board size produce identical
counts and byte-identical formatted records; moreover at every node the
candidate columns are visited in strictly increasing index order (the
bit-scan from the least significant bit). -/
theorem search_deterministic_ordered (N : Nat) :
    (Solver.solveWithSymmetry N).count = (Solver.solveWithSymmetry N).count ∧
    formatRecords (Solver.solveWithSymmetry N).out =
      formatRecords (Solver.solveWithSymmetry N).out ∧
    ∀ p : Nat, List.Sorted (· < ·) (bitIndices p) :=
  ⟨rfl, rfl, fun _ => (List.sorted_lt_range 64).filter _⟩

/-- Claim C9: on entry to every recursive call reachable from a call whose
placement length equals the number of set bits in its occupied-columns
mask, that equality still holds; and every recursive call a node issues
receives the node's own placement extended by exactly the called column
(the pop after each return leaves the parent placement intact for the next
sibling, which is the immutable-list reading of the push/pop pair). -/
theorem placement_bitcount_invariant (N : Nat) (a b : CallArgs)
    (hreach : Reaches N a b) (hroot : popcount a.cols = a.path.length) :
    popcount b.cols = b.path.length ∧
    ∀ c ∈ childCalls N b, ∃ j, c.cols = b.cols ||| 2 ^ j ∧
      c.path = b.path ++ [j + 1] := by
  have hchild : ∀ d : CallArgs, popcount d.cols = d.path.length →
      ∀ c ∈ childCalls N d, ∃ j, c.cols = d.cols ||| 2 ^ j ∧
        c.path = d.path ++ [j + 1] ∧ popcount c.cols = c.path.length := by
    intro d hd c hc
    unfold childCalls at hc
    split at hc
    · simp at hc
    · obtain ⟨j, hj, rfl⟩ := List.mem_map.1 hc
      obtain ⟨hj64, _, hcbit, _, _⟩ := bitIndices_avail hj
      refine ⟨j, rfl, rfl, ?_⟩
      simp only [List.length_append, List.length_singleton]
      rw [popcount_lor_two_pow hj64 hcbit, hd]
  induction hreach with
  | refl => exact ⟨hroot, fun c hc => by
      obtain ⟨j, h1, h2, _⟩ := hchild a hroot c hc
      exact ⟨j, h1, h2⟩⟩
  | step hab hc ih =>
    obtain ⟨hb, _⟩ := ih
    obtain ⟨j, _, _, hcinv⟩ := hchild _ hb _ hc
    exact ⟨hcinv, fun c2 hc2 => by
      obtain ⟨j2, h1, h2, _⟩ := hchild _ hcinv c2 hc2
      exact ⟨j2, h1, h2⟩⟩

theorem placement_bitcount_invariant_witness :
    popcount (CallArgs.mk 0 0 0 []).cols = (CallArgs.mk 0 0 0 []).path.length ∧
    ∀ c ∈ childCalls 4 (CallArgs.mk 0 0 0 []), ∃ j,
      c.cols = (CallArgs.mk 0 0 0 []).cols ||| 2 ^ j ∧
      c.path = (CallArgs.mk 0 0 0 []).path ++ [j + 1] :=
  placement_bitcount_invariant 4 ⟨0, 0, 0, []⟩ ⟨0, 0, 0, []⟩ (Reaches.refl _)
    (by decide)

/-- Claim C7: board sizes 2 and 3 short-circuit in all three variants to the
no-solution outcome: the search is never invoked (the outcome is
`noSolution`, not `completed`), zero solutions and no records are reported,
the process exits successfully, and the outcome differs from the
precondition (invalid-input) failure. -/
theorem small_unsolvable_short_circuit (n : Int) (h : n = 2 ∨ n = 3) :
    Solver.main (some n) = .noSolution ∧
    Part000.main (some n) = .noSolution ∧
    Part001.main (some n) = .noSolution ∧
    MainOutcome.noSolution ≠ MainOutcome.invalidInput ∧
    exitCode (Solver.main (some n)) = 0 ∧
    reportedCount (Solver.main (some n)) = 0 ∧
    reportedRecords (Solver.main (some n)) = [] := by
  rcases h with rfl | rfl <;> exact by decide

theorem small_unsolvable_short_circuit_witness :
    ((2 : Int) = 2 ∨ (2 : Int) = 3) ∧
    Solver.main (some 2) = .noSolution ∧
    Part000.main (some 2) = .noSolution ∧
    Part001.main (some 2) = .noSolution :=
  ⟨Or.inl rfl,
    (small_unsolvable_short_circuit 2 (Or.inl rfl)).1,
    (small_unsolvable_short_circuit 2 (Or.inl rfl)).2.1,
    (small_unsolvable_short_circuit 2 (Or.inl rfl)).2.2.1⟩

/-- Claim C6, counterexample: board size 0 is NOT reported as a distinct
failure: `solver.cpp` handles it through the same `"No Solution"` branch as
the unsolvable boards and exits successfully (code 0, not the code-1
invalid-input failure); and in `part_000` the value 0 is not even detected —
the run proceeds past the check into the solve phase. -/
theorem nonpositive_not_distinct_failure :
    Solver.main (some 0) = .noSolution ∧
    Solver.main (some 0) ≠ .invalidInput ∧
    exitCode (Solver.main (some 0)) = 0 ∧
    Part000.main (some 0) = .completed 0 0 [] := by
  decide

/-- Claim C6, amended: unparseable input is detected before the search in all
three variants and reported as the distinct invalid-input failure (exit
code 1), the search never running; a parsed board size ≤ 0, however, is not
a distinct failure: `solver.cpp` and `part_001` fold it into the
no-solution short-circuit (exit 0, search never runs), and `part_000` lets
0 through to the solve phase (which finishes with 0 solutions; negative
values head into an undefined shift). -/
theorem nonpositive_input_handling (n : Int) (h : n ≤ 0) :
    Solver.main none = .invalidInput ∧
    Part000.main none = .invalidInput ∧
    Part001.main none = .invalidInput ∧
    exitCode (Solver.main none) = 1 ∧
    Solver.main (some n) = .noSolution ∧
    Part001.main (some n) = .noSolution ∧
    Part000.main (some 0) = .completed 0 0 [] := by
  refine ⟨by decide, by decide, by decide, by decide, ?_, ?_, by decide⟩
  · show (if n < 4 ∧ n ≠ 1 then MainOutcome.noSolution
      else if 64 ≤ n then MainOutcome.undefinedShift
      else MainOutcome.completed n.toNat (Solver.solveWithSymmetry n.toNat).count
        (Solver.solveWithSymmetry n.toNat).out) = MainOutcome.noSolution
    rw [if_pos ⟨by omega, by omega⟩]
  · show (if n < 4 ∧ n ≠ 1 then MainOutcome.noSolution
      else if 64 ≤ n then MainOutcome.undefinedShift
      else MainOutcome.completed n.toNat (Part001.solveWithSymmetry n.toNat).count
        (Part001.solveWithSymmetry n.toNat).out) = MainOutcome.noSolution
    rw [if_pos ⟨by omega, by omega⟩]

theorem nonpositive_input_handling_witness :
    (0 : Int) ≤ 0 ∧
    Solver.main (some 0) = .noSolution ∧
    Part001.main (some 0) = .noSolution ∧
    Part000.main (some 0) = .completed 0 0 [] :=
  ⟨le_refl 0,
    (nonpositive_input_handling 0 (le_refl 0)).2.2.2.2.1,
    (nonpositive_input_handling 0 (le_refl 0)).2.2.2.2.2.1,
    (nonpositive_input_handling 0 (le_refl 0)).2.2.2.2.2.2⟩

set_option maxRecDepth 1000000 in
set_option maxHeartbeats 16000000 in
/-- Claim C3: on the 8-board the search reports exactly 92 solutions and writes
exactly 92 records to the sink — in `solver.cpp` and in `part_000`. -/
theorem eight_queens_ninety_two :
    (Solver.solveWithSymmetry 8).count = 92 ∧
    (Solver.solveWithSymmetry 8).out.length = 92 ∧
    (Part000.solveWithSymmetry 8).count = 92 ∧
    (Part000.solveWithSymmetry 8).out.length = 92 := by
  refine ⟨by decide, by decide, by decide, by decide⟩
